import Mathlib

/-!
Verification of the candle-pipeline routines of the BTCprice repository.

The Python sources are shallowly embedded: pure data-manipulation functions
become Lean functions over lists of records, the network is abstracted as an
oracle argument, and file input is abstracted as the list of parsed records.
Numeric payload fields (prices, volumes) are carried as integers: the modelled
code paths only copy and compare them, never perform float arithmetic on them.
Timestamps are integers (unix seconds), exactly as in the sources.
-/

/-! ### Configuration constants (fetch_missing_data.py lines 13-17, main.py lines 14-19) -/

def MAX_CANDLES_PER_REQUEST : Nat := 1000

def MAX_RETRIES : Nat := 5

def RETRY_DELAY : Nat := 2

/-- `MAX_CHUNK_SIZE = MAX_CANDLES_PER_REQUEST * 60` (fetch_missing_data.py line 138). -/
def MAX_CHUNK_SIZE : Int := (MAX_CANDLES_PER_REQUEST : Int) * 60

/-! ### Data model -/

/-- One candle in the Coinbase list layout `[timestamp, low, high, open, close, volume]`
used throughout fetch_missing_data.py and main.py.  The `open` field is named
`open_p` because `open` is a Lean keyword. -/
structure Candle where
  time : Int
  low : Int
  high : Int
  open_p : Int
  close : Int
  volume : Int
deriving DecidableEq

/-- One CSV row as written by the pipeline, field order
`open, close, volume, unix_timestamp, high, low` (fetch_missing_data.py lines 173-181).
The redundant ISO-formatted `timestamp` string (derived from `unix_timestamp` by
datetime formatting) is omitted; no embedded code path reads it. -/
structure CsvRow where
  open_p : Int
  close : Int
  volume : Int
  unix_timestamp : Int
  high : Int
  low : Int
deriving DecidableEq

/-- Conversion of a candle into a CSV row (fetch_missing_data.py lines 164-181). -/
def toCsvRow (candle : Candle) : CsvRow :=
  ⟨candle.open_p, candle.close, candle.volume, candle.time, candle.high, candle.low⟩

/-! ### Expected-timestamp walks

Several source loops walk a cursor `expected_time` from a start to an end
timestamp in steps of 60 seconds.  `expectedTimestamps s e` is the list of
values the cursor takes while `expected_time <= e` holds; the closed form below
is proved to satisfy the loop-unfolding equation in
`expectedTimestamps_eq_loop`. -/

def expectedTimestamps (start_timestamp end_timestamp : Int) : List Int :=
  if start_timestamp ≤ end_timestamp then
    (List.range (((end_timestamp - start_timestamp) / 60).toNat + 1)).map
      (fun k : Nat => start_timestamp + 60 * (k : Int))
  else []

/-! ### fill_missing_candles (fetch_missing_data.py lines 87-121)

The version in main.py lines 69-100 is identical except that its cursor loop
uses a strict bound `expected_time < end_timestamp`; all claims below concern
the inclusive-bound version, and the per-candle behaviour of the two versions
is the same. -/

/-- Ordering used by `sorted(candles, key=lambda c: c[0])`
(fetch_missing_data.py line 96).  Python list sorting is stable; it is modelled
by `List.insertionSort`, which is also stable for this total preorder. -/
def candleLe (a b : Candle) : Prop := a.time ≤ b.time

instance : DecidableRel candleLe :=
  fun a b => inferInstanceAs (Decidable (a.time ≤ b.time))

/-- The synthetic candle built in the missing-candle branch when a previous
candle exists (fetch_missing_data.py lines 107-115): the last candle is copied
field by field with the timestamp replaced and the volume zeroed. -/
def carry_forward (expected_time : Int) (last_candle : Candle) : Candle :=
  ⟨expected_time, last_candle.low, last_candle.high, last_candle.open_p, last_candle.close, 0⟩

/-- The all-zero dummy candle inserted when no previous candle exists
(fetch_missing_data.py line 118). -/
def dummy_candle (expected_time : Int) : Candle :=
  ⟨expected_time, 0, 0, 0, 0, 0⟩

/-- The candle appended in the missing branch (fetch_missing_data.py lines 105-118);
`last_candle` is truthy in Python exactly when a candle has been seen. -/
def synth_candle (expected_time : Int) (last_candle : Option Candle) : Candle :=
  match last_candle with
  | some lc => carry_forward expected_time lc
  | none => dummy_candle expected_time

/-- The `while expected_time <= end_timestamp` loop of fill_missing_candles
(fetch_missing_data.py lines 99-119), with the cursor values passed as a list,
the cursor `idx` into the sorted candles represented by the remaining suffix,
and `last_candle` threaded explicitly. -/
def fillLoop : List Int → List Candle → Option Candle → List Candle
  | [], _, _ => []
  | expected_time :: rest, c :: cs, last_candle =>
    if c.time = expected_time then
      c :: fillLoop rest cs (some c)
    else
      synth_candle expected_time last_candle :: fillLoop rest (c :: cs) last_candle
  | expected_time :: rest, [], last_candle =>
    synth_candle expected_time last_candle :: fillLoop rest [] last_candle

/-- fetch_missing_data.py lines 87-121. -/
def fill_missing_candles (candles : List Candle) (start_timestamp end_timestamp : Int) :
    List Candle :=
  fillLoop (expectedTimestamps start_timestamp end_timestamp)
    (List.insertionSort candleLe candles) none

/-! ### get_candles_binance (fetch_missing_data.py lines 19-85) -/

/-- One raw Binance kline; only the six leading fields that the conversion
loop reads (fetch_missing_data.py lines 46-54) are modelled.  `openTime` is in
milliseconds. -/
structure BinanceKline where
  openTime : Int
  open_p : Int
  high : Int
  low : Int
  close : Int
  volume : Int
deriving DecidableEq

/-- fetch_missing_data.py lines 46-54: kline timestamp `// 1000` (floor
division), then reorder into the Coinbase layout. -/
def convert_kline (kline : BinanceKline) : Candle :=
  ⟨kline.openTime.fdiv 1000, kline.low, kline.high, kline.open_p, kline.close, kline.volume⟩

/-- Outcome of one HTTP request: a 200 response with its payload, another
status code (429 is the rate-limit case), or a raised network exception. -/
inductive BinanceResp where
  | ok (data : List BinanceKline)
  | httpStatus (code : Nat)
  | exc
deriving DecidableEq

/-- Whether a response takes one of the retried branches of
get_candles_binance (status 429, any other non-200 status, or an exception). -/
def BinanceResp.isFailure : BinanceResp → Bool
  | .ok _ => false
  | .httpStatus _ => true
  | .exc => true

/-- fetch_missing_data.py lines 19-85.  The network is an oracle from the
attempt number to the response of that attempt.  Alongside the result, the
list of back-off delays slept before each retry is returned, so the retry
schedule can be stated.  A `none` result models the `return None` paths
(empty 200 payload, or retries exhausted); exceptions are caught by the
source, so the embedding is total. -/
def get_candles_binance (oracle : Nat → BinanceResp) (retry_count : Nat) :
    Option (List Candle) × List Nat :=
  match oracle retry_count with
  | .ok data =>
    if data.isEmpty then (none, []) else (some (data.map convert_kline), [])
  | .httpStatus _ | .exc =>
    if h : retry_count < MAX_RETRIES then
      let retry_delay := RETRY_DELAY * 2 ^ retry_count
      let p := get_candles_binance oracle (retry_count + 1)
      (p.1, retry_delay :: p.2)
    else
      (none, [])
termination_by MAX_RETRIES - retry_count
decreasing_by all_goals exact Nat.sub_succ_lt_self _ _ h

/-! ### fetch_missing_range (fetch_missing_data.py lines 123-188) -/

/-- The chunking loop of fetch_missing_range (fetch_missing_data.py lines
139-145): split `[current_start, end_ts]` into windows of at most
`MAX_CHUNK_SIZE` seconds. -/
def mkChunks (current_start end_ts : Int) : List (Int × Int) :=
  if h : current_start ≤ end_ts then
    let current_end := min (current_start + MAX_CHUNK_SIZE - 60) end_ts
    (current_start, current_end) :: mkChunks (current_end + 60) end_ts
  else []
termination_by (end_ts + 60 - current_start).toNat
decreasing_by
  simp only [MAX_CHUNK_SIZE, MAX_CANDLES_PER_REQUEST] at *
  omega

/-- The fetch loop of fetch_missing_range (fetch_missing_data.py lines
147-157): a failed chunk (`get_candles` returning `none`) is skipped with
`continue`; a successful chunk is passed through fill_missing_candles.
`get_candles` abstracts `get_candles_binance` with its retries already
performed. -/
def collectChunks (get_candles : Int → Int → Option (List Candle)) :
    List (Int × Int) → List Candle
  | [] => []
  | (chunk_start, chunk_end) :: rest =>
    (match get_candles chunk_start chunk_end with
     | none => []
     | some raw_data => fill_missing_candles raw_data chunk_start chunk_end) ++
      collectChunks get_candles rest

/-- fetch_missing_data.py lines 123-188: `None` is returned when `all_data`
stays empty (lines 159-161); otherwise the rows are returned in CSV layout. -/
def fetch_missing_range (get_candles : Int → Int → Option (List Candle))
    (start_timestamp end_timestamp : Int) : Option (List CsvRow) :=
  let all_data := collectChunks get_candles (mkChunks start_timestamp end_timestamp)
  if all_data.isEmpty then none else some (all_data.map toCsvRow)

/-- A secondary source that is unreachable: every fetch attempt fails. -/
def unreachable_secondary : Int → Int → Option (List Candle) := fun _ _ => none

/-! ### Gap detection (main.py lines 210-292) -/

/-- The `while expected_timestamp <= timestamps[-1]` loop of
find_missing_timestamps (main.py lines 251-264), with the cursor values passed
as a list and the open range `(current_missing_start, current_missing_end)`
threaded as the optional state.  Membership in `timestamp_set` is list
membership, matching the Python set. -/
def findMissingLoop (timestamp_set : List Int) :
    List Int → Option (Int × Int) → List (Int × Int)
  | [], state =>
    match state with
    | some r => [r]
    | none => []
  | expected_timestamp :: rest, state =>
    if timestamp_set.contains expected_timestamp then
      match state with
      | some r => r :: findMissingLoop timestamp_set rest none
      | none => findMissingLoop timestamp_set rest none
    else
      match state with
      | some (s, _) => findMissingLoop timestamp_set rest (some (s, expected_timestamp))
      | none =>
        findMissingLoop timestamp_set rest (some (expected_timestamp, expected_timestamp))

/-- main.py lines 210-266, with the CSV file abstracted as its parsed
timestamp column; the empty-file early returns give `[]`. -/
def find_missing_timestamps (timestamps : List Int) : List (Int × Int) :=
  if timestamps.isEmpty then []
  else
    let sorted := List.insertionSort (fun a b : Int => a ≤ b) timestamps
    findMissingLoop sorted (expectedTimestamps sorted.headI sorted.getLastI) none

/-- The accumulation loop of group_consecutive_timestamps (main.py lines
279-290), carrying `current_start` and `current_end`. -/
def groupLoop : List Int → Int → Int → List (Int × Int)
  | [], current_start, current_end => [(current_start, current_end)]
  | t :: rest, current_start, current_end =>
    if t = current_end + 60 then groupLoop rest current_start t
    else (current_start, current_end) :: groupLoop rest t t

/-- main.py lines 268-292. -/
def group_consecutive_timestamps : List Int → List (Int × Int)
  | [] => []
  | t :: rest => groupLoop rest t t

/-! ### merge_csv_files (merge_csv_data.py lines 5-65; the copy in main.py
lines 358-418 is identical) -/

/-- `all_data.sort(key=lambda x: int(x['unix_timestamp']))`
(merge_csv_data.py line 37).  Python sorting is stable; modelled by the stable
`List.insertionSort` under the same key order. -/
def rowLe (a b : CsvRow) : Prop := a.unix_timestamp ≤ b.unix_timestamp

instance : DecidableRel rowLe :=
  fun a b => inferInstanceAs (Decidable (a.unix_timestamp ≤ b.unix_timestamp))

instance : IsTotal CsvRow rowLe := ⟨fun a b => Int.le_total a.unix_timestamp b.unix_timestamp⟩

instance : IsTrans CsvRow rowLe := ⟨fun _ _ _ h1 h2 => le_trans h1 h2⟩

/-- Strict version of `rowLe`; a list of rows pairwise in `rowLt` is sorted
with no duplicate timestamps. -/
def rowLt (a b : CsvRow) : Prop := a.unix_timestamp < b.unix_timestamp

instance : DecidableRel rowLt :=
  fun a b => inferInstanceAs (Decidable (a.unix_timestamp < b.unix_timestamp))

/-- Strict-or-equal order on rows; antisymmetric, which makes a sorted
permutation unique and pins down the stable sort of a duplicated sorted
list. -/
def rowOrd (a b : CsvRow) : Prop := rowLt a b ∨ a = b

instance : IsAntisymm CsvRow rowOrd where
  antisymm a b hab hba := by
    rcases hab with h1 | h1
    · rcases hba with h2 | h2
      · exact absurd h1 (by simp only [rowLt] at h2 ⊢; omega)
      · exact h2.symm
    · exact h1

/-- The duplicate-removal loop of merge_csv_files (merge_csv_data.py lines
39-50): walk the sorted rows keeping the first occurrence of each
`unix_timestamp` and counting the dropped ones; `seen_timestamps` is the set
of already-kept timestamps. -/
def dedupeLoop : List Int → List CsvRow → List CsvRow × Nat
  | _, [] => ([], 0)
  | seen_timestamps, row :: rest =>
    if seen_timestamps.contains row.unix_timestamp then
      let p := dedupeLoop seen_timestamps rest
      (p.1, p.2 + 1)
    else
      let p := dedupeLoop (row.unix_timestamp :: seen_timestamps) rest
      (row :: p.1, p.2)

/-- merge_csv_data.py lines 5-65, abstracting the two CSV files as row lists:
concatenate (original rows first), stable-sort by unix timestamp, drop
duplicate timestamps keeping the first occurrence; returns the kept rows and
the `duplicates_removed` counter. -/
def merge_csv_files (original missing_data : List CsvRow) : List CsvRow × Nat :=
  dedupeLoop [] (List.insertionSort rowLe (original ++ missing_data))

/-! ### merge_2015_data (merge_2015_data.py lines 5-74) -/

/-- One raw CSV row of the 2015 merge script; `row[0]` (the timestamp field
compared at merge_2015_data.py line 39) is kept separate from the remaining
fields, so that every modelled row is non-empty as in the data files. -/
structure Row2015 where
  ts : String
  fields : List String
deriving DecidableEq

/-- merge_2015_data.py lines 5-74, with the two input files abstracted as row
lists and the interactive `input()` call (line 49) abstracted as the `choice`
argument.  `none` models the IndexError the script raises on an empty input
file (lines 33-34). -/
def merge_2015_data (bitstamp_data coinbase_data : List Row2015) (choice : String) :
    Option (List Row2015) :=
  match bitstamp_data.getLast?, coinbase_data.head? with
  | some bitstamp_last, some coinbase_first =>
    if bitstamp_last.ts = coinbase_first.ts then
      if choice = "1" then some (bitstamp_data ++ coinbase_data.tail)
      else if choice = "2" then some (bitstamp_data.dropLast ++ coinbase_data)
      else some (bitstamp_data ++ coinbase_data)
    else some (bitstamp_data ++ coinbase_data)
  | _, _ => none

/-! ### validate_data (main.py lines 420-488) -/

/-- The `missing_timestamps` list computed by validate_data (main.py lines
472-480): walk the expected cursor over the declared span and collect the
timestamps absent from the set of read timestamps.  `expected_start` and
`expected_end` default to the extremes of the sorted data as in the source. -/
def validate_data_missing (timestamps : List Int)
    (expected_start expected_end : Option Int) : List Int :=
  let sorted := List.insertionSort (fun a b : Int => a ≤ b) timestamps
  let es := expected_start.getD sorted.headI
  let ee := expected_end.getD sorted.getLastI
  (expectedTimestamps es ee).filter (fun t => !(sorted.contains t))

/-- main.py lines 420-488, abstracting the CSV file as its parsed timestamp
column: `False` for an empty file, otherwise success exactly when no expected
timestamp is missing from the set of timestamps. -/
def validate_data (timestamps : List Int)
    (expected_start expected_end : Option Int) : Bool :=
  if timestamps.isEmpty then false
  else (validate_data_missing timestamps expected_start expected_end).isEmpty

/-! ### Helper used to state the self-merge claim -/

/-- Each element of the list repeated twice in place; the shape of a stable
sort of `S ++ S` when the timestamps of `S` are strictly increasing. -/
def dupEach : List CsvRow → List CsvRow
  | [] => []
  | a :: rest => a :: a :: dupEach rest

/-- A source used as a concrete always-rate-limited network for witnesses. -/
def rate_limited_source : Nat → BinanceResp := fun _ => BinanceResp.httpStatus 429

/-! ## Helper lemmas -/

/-- The closed form `expectedTimestamps` satisfies the unfolding equation of
the `while expected_time <= end` / `expected_time += 60` loops it models. -/
theorem expectedTimestamps_eq_loop (s e : Int) :
    expectedTimestamps s e = if s ≤ e then s :: expectedTimestamps (s + 60) e else [] := by
  by_cases h : s ≤ e
  · rw [if_pos h]
    by_cases h2 : s + 60 ≤ e
    · have hdiv : (e - s) / 60 = (e - (s + 60)) / 60 + 1 := by
        have hes : e - s = (e - (s + 60)) + 1 * 60 := by ring
        rw [hes, Int.add_mul_ediv_right _ _ (by norm_num)]
      have hge : 0 ≤ (e - (s + 60)) / 60 := Int.ediv_nonneg (by omega) (by norm_num)
      have htn : ((e - (s + 60)) / 60 + 1).toNat = ((e - (s + 60)) / 60).toNat + 1 := by
        omega
      rw [expectedTimestamps, expectedTimestamps, if_pos h, if_pos h2, hdiv, htn,
        List.range_succ_eq_map]
      simp only [List.map_cons, List.map_map, Nat.cast_zero, mul_zero, add_zero]
      refine congrArg (s :: ·) (List.map_congr_left ?_)
      intro k _
      simp only [Function.comp_apply, Nat.cast_succ]
      ring
    · have h0 : (e - s) / 60 = 0 := Int.ediv_eq_zero_of_lt (by omega) (by omega)
      rw [expectedTimestamps, expectedTimestamps, if_pos h, if_neg h2, h0]
      have hr : List.range (Int.toNat 0 + 1) = [0] := rfl
      rw [hr, List.map_cons, List.map_nil, Nat.cast_zero, mul_zero, add_zero]
  · rw [if_neg h, expectedTimestamps, if_neg h]

theorem mem_expectedTimestamps_bounds {s e t : Int} (ht : t ∈ expectedTimestamps s e) :
    s ≤ t ∧ t ≤ e := by
  rw [expectedTimestamps] at ht
  by_cases h : s ≤ e
  · rw [if_pos h] at ht
    obtain ⟨k, hk, rfl⟩ := List.mem_map.mp ht
    rw [List.mem_range] at hk
    have hq0 : 0 ≤ (e - s) / 60 := Int.ediv_nonneg (by omega) (by norm_num)
    have hqq : (e - s) / 60 * 60 ≤ e - s := Int.ediv_mul_le (e - s) (by norm_num)
    omega
  · rw [if_neg h] at ht
    exact absurd ht (List.not_mem_nil t)

theorem pairwise_expectedTimestamps (s e : Int) :
    (expectedTimestamps s e).Pairwise (· < ·) := by
  rw [expectedTimestamps]
  by_cases h : s ≤ e
  · rw [if_pos h, List.pairwise_map]
    refine (List.pairwise_lt_range _).imp ?_
    intro a b hab
    omega
  · rw [if_neg h]; exact List.Pairwise.nil

theorem length_expectedTimestamps {s e : Int} (h : s ≤ e) :
    (expectedTimestamps s e).length = ((e - s) / 60).toNat + 1 := by
  rw [expectedTimestamps, if_pos h]
  simp

/-- The timestamp of a synthesized candle is the cursor value. -/
theorem synth_candle_time (expected_time : Int) (last_candle : Option Candle) :
    (synth_candle expected_time last_candle).time = expected_time := by
  cases last_candle <;> rfl

/-- A synthesized candle always has volume 0. -/
theorem synth_candle_volume (expected_time : Int) (last_candle : Option Candle) :
    (synth_candle expected_time last_candle).volume = 0 := by
  cases last_candle <;> rfl

/-- The fill loop emits exactly one candle per cursor value, carrying the
cursor value as its timestamp. -/
theorem fillLoop_map_time :
    ∀ (exps : List Int) (cs : List Candle) (last_candle : Option Candle),
      (fillLoop exps cs last_candle).map Candle.time = exps := by
  intro exps
  induction exps with
  | nil => intro cs last_candle; cases cs <;> rfl
  | cons e rest ih =>
    intro cs last_candle
    cases cs with
    | nil => simp [fillLoop, synth_candle_time, ih]
    | cons c cs2 =>
      by_cases h : c.time = e
      · simp [fillLoop, h, ih]
      · simp [fillLoop, h, synth_candle_time, ih]

/-- Every candle emitted by the fill loop is an input candle or has volume 0. -/
theorem fillLoop_mem_volume :
    ∀ (exps : List Int) (cs : List Candle) (last_candle : Option Candle),
      ∀ c ∈ fillLoop exps cs last_candle, c ∈ cs ∨ c.volume = 0 := by
  intro exps
  induction exps with
  | nil => intro cs last_candle c hc; cases cs <;> simp [fillLoop] at hc
  | cons e rest ih =>
    intro cs last_candle c hc
    cases cs with
    | nil =>
      simp only [fillLoop, List.mem_cons] at hc
      rcases hc with rfl | hc
      · exact Or.inr (synth_candle_volume _ _)
      · exact Or.inr ((ih [] last_candle c hc).resolve_left (by simp))
    | cons c0 cs2 =>
      by_cases h : c0.time = e
      · rw [fillLoop, if_pos h] at hc
        rcases List.mem_cons.mp hc with rfl | hc
        · exact Or.inl (List.mem_cons_self _ _)
        · rcases ih cs2 (some c0) c hc with hm | hv
          · exact Or.inl (List.mem_cons_of_mem _ hm)
          · exact Or.inr hv
      · rw [fillLoop, if_neg h] at hc
        rcases List.mem_cons.mp hc with rfl | hc
        · exact Or.inr (synth_candle_volume _ _)
        · exact ih (c0 :: cs2) last_candle c hc

/-- Carrying forward a synthesized candle copies the same four price fields
as synthesizing directly from the underlying loop state. -/
theorem carry_forward_synth_candle (t u : Int) (last_candle : Option Candle) :
    carry_forward t (synth_candle u last_candle) = synth_candle t last_candle := by
  cases last_candle <;> rfl

/-- Carrying a carried-forward candle forward again copies the original
candle fields. -/
theorem carry_forward_carry_forward (t u : Int) (a : Candle) :
    carry_forward t (carry_forward u a) = carry_forward t a := rfl

/-- The fill loop emits candles in a carry chain: each emitted candle is an
input candle (drawn from `cs`, a subset of `CS`) or a carry-forward copy of
the candle emitted immediately before it; the first emitted candle is an
input candle or the synthesized candle of the incoming `last_candle` state. -/
theorem fillLoop_chain (CS : List Candle) :
    ∀ (exps : List Int) (cs : List Candle) (last_candle : Option Candle),
      (∀ x ∈ cs, x ∈ CS) →
      (∀ y, (fillLoop exps cs last_candle).head? = some y →
          y ∈ CS ∨ y = synth_candle y.time last_candle) ∧
      List.Chain' (fun prev cur => cur ∈ CS ∨ cur = carry_forward cur.time prev)
        (fillLoop exps cs last_candle) := by
  intro exps
  induction exps with
  | nil =>
    intro cs last_candle _
    refine ⟨?_, ?_⟩
    · intro y hy
      cases cs <;> simp [fillLoop] at hy
    · cases cs <;> simp [fillLoop]
  | cons e rest ih =>
    intro cs last_candle hsub
    cases cs with
    | nil =>
      obtain ⟨ihh, ihc⟩ := ih [] last_candle (fun x hx => absurd hx (List.not_mem_nil x))
      refine ⟨?_, ?_⟩
      · intro y hy
        rw [fillLoop, List.head?_cons, Option.some_inj] at hy
        refine Or.inr ?_
        rw [← hy, synth_candle_time]
      · rw [fillLoop]
        refine List.chain'_cons'.mpr ⟨?_, ihc⟩
        intro y hy
        rcases ihh y hy with h1 | h1
        · exact Or.inl h1
        · refine Or.inr ?_
          rw [h1, carry_forward_synth_candle, synth_candle_time]
    | cons c0 cs2 =>
      by_cases hmatch : c0.time = e
      · obtain ⟨ihh, ihc⟩ :=
          ih cs2 (some c0) (fun x hx => hsub x (List.mem_cons_of_mem _ hx))
        refine ⟨?_, ?_⟩
        · intro y hy
          rw [fillLoop, if_pos hmatch, List.head?_cons, Option.some_inj] at hy
          exact Or.inl (hy ▸ hsub c0 (List.mem_cons_self _ _))
        · rw [fillLoop, if_pos hmatch]
          refine List.chain'_cons'.mpr ⟨?_, ihc⟩
          intro y hy
          rcases ihh y hy with h1 | h1
          · exact Or.inl h1
          · exact Or.inr h1
      · obtain ⟨ihh, ihc⟩ := ih (c0 :: cs2) last_candle hsub
        refine ⟨?_, ?_⟩
        · intro y hy
          rw [fillLoop, if_neg hmatch, List.head?_cons, Option.some_inj] at hy
          refine Or.inr ?_
          rw [← hy, synth_candle_time]
        · rw [fillLoop, if_neg hmatch]
          refine List.chain'_cons'.mpr ⟨?_, ihc⟩
          intro y hy
          rcases ihh y hy with h1 | h1
          · exact Or.inl h1
          · refine Or.inr ?_
            rw [h1, carry_forward_synth_candle, synth_candle_time]

/-- A chain relates each entry to the entry immediately before it. -/
theorem chain'_pair {R : Candle → Candle → Prop} :
    ∀ (pre : List Candle) (a b : Candle) (rest : List Candle),
      List.Chain' R (pre ++ a :: b :: rest) → R a b := by
  intro pre a b rest h
  have hsplit : pre ++ a :: b :: rest = (pre ++ [a]) ++ b :: rest := by simp
  rw [hsplit] at h
  obtain ⟨h1, h2, h3⟩ := List.chain'_append.mp h
  refine h3 a ?_ b ?_
  · simp
  · rfl

/-- Along a run of non-input (synthesized) entries, the carry chain copies
the four price fields of the entry that precedes the whole run: the last
known candle. -/
theorem chain_carry_run (CS : List Candle) :
    ∀ (mid pre : List Candle) (a c : Candle) (post : List Candle),
      List.Chain' (fun prev cur => cur ∈ CS ∨ cur = carry_forward cur.time prev)
        (pre ++ a :: (mid ++ c :: post)) →
      (∀ m ∈ mid, m ∉ CS) → c ∉ CS →
      c = carry_forward c.time a := by
  intro mid
  induction mid with
  | nil =>
    intro pre a c post hchain hmid hc
    have h := chain'_pair pre a c post (by simpa using hchain)
    exact h.resolve_left hc
  | cons m mid2 ihm =>
    intro pre a c post hchain hmid hc
    have hm : m = carry_forward m.time a := by
      have h := chain'_pair pre a m (mid2 ++ c :: post) (by simpa using hchain)
      exact h.resolve_left (hmid m (List.mem_cons_self _ _))
    have hc2 : c = carry_forward c.time m := by
      refine ihm (pre ++ [a]) m c post ?_
        (fun x hx => hmid x (List.mem_cons_of_mem _ hx)) hc
      simpa using hchain
    conv_lhs => rw [hc2]
    rw [hm, carry_forward_carry_forward]

/-! ## Claim theorems -/

/-- C9: gap detection on a series with candles at t = 0, 60, 180 and period 60
walks the expected cursor over the covered span, tests set membership, and
groups consecutive absences: it returns exactly the single missing range
(120, 120), and group_consecutive_timestamps groups the corresponding missing
timestamp list into the same single range. -/
theorem find_missing_timestamps_gap_at_120 :
    find_missing_timestamps [0, 60, 180] = [(120, 120)] ∧
    group_consecutive_timestamps [120] = [(120, 120)] := by
  decide

/-- C10: for any input candle list and any 60-aligned range with
start ≤ end, fill_missing_candles returns one candle per expected timestamp:
the output timestamps are exactly start, start+60, ..., end (end inclusive) in
strictly ascending order, the output length is (end-start)/60 + 1, and every
output candle is an input candle or a synthesized one with volume 0. -/
theorem fill_missing_candles_exact_coverage (candles : List Candle)
    (start_timestamp end_timestamp : Int)
    (h1 : start_timestamp ≤ end_timestamp)
    (h2 : (end_timestamp - start_timestamp) % 60 = 0) :
    (fill_missing_candles candles start_timestamp end_timestamp).map Candle.time
        = expectedTimestamps start_timestamp end_timestamp ∧
    (fill_missing_candles candles start_timestamp end_timestamp).length
        = ((end_timestamp - start_timestamp) / 60).toNat + 1 ∧
    ((fill_missing_candles candles start_timestamp end_timestamp).map Candle.time).Pairwise
        (· < ·) ∧
    ∀ c ∈ fill_missing_candles candles start_timestamp end_timestamp,
      c ∈ candles ∨ c.volume = 0 := by
  have hmap : (fill_missing_candles candles start_timestamp end_timestamp).map Candle.time
      = expectedTimestamps start_timestamp end_timestamp := fillLoop_map_time _ _ _
  refine ⟨hmap, ?_, ?_, ?_⟩
  · have hlen := congrArg List.length hmap
    rw [List.length_map] at hlen
    rw [hlen, length_expectedTimestamps h1]
  · rw [hmap]
    exact pairwise_expectedTimestamps _ _
  · intro c hc
    rcases fillLoop_mem_volume _ _ _ c hc with hm | hv
    · exact Or.inl ((List.mem_insertionSort _).mp hm)
    · exact Or.inr hv

/-- C10 witness: the coverage theorem instantiated at the empty input and the
range [0, 120]. -/
theorem fill_missing_candles_exact_coverage_witness :
    (fill_missing_candles [] 0 120).map Candle.time = expectedTimestamps 0 120 ∧
    (fill_missing_candles [] 0 120).length = ((120 - 0 : Int) / 60).toNat + 1 ∧
    ((fill_missing_candles [] 0 120).map Candle.time).Pairwise (· < ·) ∧
    (∀ c ∈ fill_missing_candles [] 0 120, c ∈ ([] : List Candle) ∨ c.volume = 0) :=
  fill_missing_candles_exact_coverage [] 0 120 (by decide) (by decide)

/-- C1 counterexample: repairing the gap at t = 60 after a known candle with
low 1, high 4, open 2, close 3 synthesizes a field-by-field copy with volume
0; its open (2) differs from its close (3), so the four prices of a
carry-forward candle are not all equal to the last known close. -/
theorem fill_missing_candles_not_flat_at_close :
    fill_missing_candles [⟨0, 1, 4, 2, 3, 10⟩] 0 60
        = [⟨0, 1, 4, 2, 3, 10⟩, ⟨60, 1, 4, 2, 3, 0⟩] ∧
    (⟨60, 1, 4, 2, 3, 0⟩ : Candle).volume = 0 ∧
    (⟨60, 1, 4, 2, 3, 0⟩ : Candle).open_p ≠ (⟨60, 1, 4, 2, 3, 0⟩ : Candle).close := by
  decide

/-- C1 amended: the repaired output is a carry chain — every entry is an
input candle or a carry-forward copy of the entry emitted immediately before
it — and therefore every synthesized candle copies the four price fields of
the LAST known candle: whenever the output splits as
`pre ++ a :: mid ++ c :: post` with `c` not an input candle and every entry
of `mid` not an input candle either (so `a` is the entry immediately
preceding the gap run — in particular the last known input candle before the
gap), then `c = carry_forward c.time a`: the low, high, open and close of `c`
are exactly those of `a`, and its volume is 0.  In particular
`c.close = a.close = lastKnownClose`, while the open, high and low keep the
last known candle entries rather than all four prices collapsing to the
close. -/
theorem fill_missing_candles_synthesized_copies_last (candles : List Candle)
    (start_timestamp end_timestamp : Int) :
    List.Chain' (fun prev cur =>
        cur ∈ List.insertionSort candleLe candles ∨ cur = carry_forward cur.time prev)
      (fill_missing_candles candles start_timestamp end_timestamp) ∧
    ∀ (pre : List Candle) (a : Candle) (mid : List Candle) (c : Candle)
        (post : List Candle),
      fill_missing_candles candles start_timestamp end_timestamp
          = pre ++ a :: (mid ++ c :: post) →
      (∀ m ∈ mid, m ∉ List.insertionSort candleLe candles) →
      c ∉ List.insertionSort candleLe candles →
      c = carry_forward c.time a := by
  have hchain : List.Chain' (fun prev cur =>
      cur ∈ List.insertionSort candleLe candles ∨ cur = carry_forward cur.time prev)
      (fill_missing_candles candles start_timestamp end_timestamp) :=
    (fillLoop_chain (List.insertionSort candleLe candles)
      (expectedTimestamps start_timestamp end_timestamp)
      (List.insertionSort candleLe candles) none (fun x hx => hx)).2
  refine ⟨hchain, ?_⟩
  intro pre a mid c post hdecomp hmid hc
  rw [hdecomp] at hchain
  exact chain_carry_run (List.insertionSort candleLe candles) mid pre a c post
    hchain hmid hc

/-- C1 witness: repairing the range [0, 120] from the single candle at t = 0
with low 1, high 4, open 2, close 3 yields two synthesized candles; the one
at t = 120, whose predecessor run consists of the synthesized t = 60 candle,
is the carry-forward copy of the last known candle at t = 0. -/
theorem fill_missing_candles_synthesized_copies_last_witness :
    (⟨120, 1, 4, 2, 3, 0⟩ : Candle)
      = carry_forward (⟨120, 1, 4, 2, 3, 0⟩ : Candle).time ⟨0, 1, 4, 2, 3, 10⟩ :=
  (fill_missing_candles_synthesized_copies_last [⟨0, 1, 4, 2, 3, 10⟩] 0 120).2
    [] ⟨0, 1, 4, 2, 3, 10⟩ [⟨60, 1, 4, 2, 3, 0⟩] ⟨120, 1, 4, 2, 3, 0⟩ []
    (by decide) (by decide) (by decide)

/-- Membership in the sorted timestamp set used by validate_data agrees with
membership in the raw timestamp list. -/
theorem sorted_contains_iff (timestamps : List Int) (t : Int) :
    (List.insertionSort (fun a b : Int => a ≤ b) timestamps).contains t = true ↔
      t ∈ timestamps :=
  List.elem_iff.trans (List.mem_insertionSort _)

/-- C2 counterexample: the series [0, 0, 60] over the declared span [0, 60]
has two entries at timestamp 0, yet validate_data reports success — the
validator only tests set membership of each expected timestamp, so a
duplicate does not fail validation, contradicting the claimed
"exactly one entry" if-and-only-if. -/
theorem validate_data_accepts_duplicate_timestamps :
    validate_data [0, 0, 60] (some 0) (some 60) = true ∧
    ([0, 0, 60] : List Int).count 0 = 2 := by
  decide

/-- C2 amended: validate_data reports success exactly when every expected
timestamp of the declared span (stepped by 60) has at least one entry in the
series; missing timestamps fail validation, but duplicate timestamps are not
detected. -/
theorem validate_data_iff_coverage (timestamps : List Int) (es ee : Int)
    (h : timestamps ≠ []) :
    validate_data timestamps (some es) (some ee) = true ↔
      ∀ t ∈ expectedTimestamps es ee, t ∈ timestamps := by
  have hne : timestamps.isEmpty = false := by
    simpa [List.isEmpty_iff] using h
  simp only [validate_data, validate_data_missing, hne, Option.getD_some,
    List.isEmpty_iff, List.filter_eq_nil_iff, Bool.false_eq_true, if_false]
  constructor
  · intro hall t ht
    have h1 := hall t ht
    rw [Bool.not_eq_true] at h1
    exact (sorted_contains_iff timestamps t).mp (by revert h1; cases ((List.insertionSort (fun a b : Int => a ≤ b) timestamps).contains t) <;> simp)
  · intro hall t ht
    have h1 := (sorted_contains_iff timestamps t).mpr (hall t ht)
    rw [Bool.not_eq_true, h1]
    rfl

/-- C2 witness: the amended characterization applied to the complete series
[0, 60] over the span [0, 60]. -/
theorem validate_data_iff_coverage_witness :
    validate_data [0, 60] (some 0) (some 60) = true :=
  (validate_data_iff_coverage [0, 60] 0 60 (by decide)).mpr (by decide)

/-- C6: if the series consists of exactly the expected timestamps of the
declared span except the very first one (each occurring once, in any order),
validate_data fails and its missing-timestamp list contains exactly one
violation, located at the first expected timestamp. -/
theorem validate_data_first_expected_missing (es ee : Int) (timestamps : List Int)
    (h60 : es + 60 ≤ ee)
    (hperm : timestamps.Perm (expectedTimestamps (es + 60) ee)) :
    validate_data timestamps (some es) (some ee) = false ∧
      validate_data_missing timestamps (some es) (some ee) = [es] := by
  have hcons : expectedTimestamps es ee = es :: expectedTimestamps (es + 60) ee := by
    rw [expectedTimestamps_eq_loop, if_pos (by omega)]
  have hmem_iff : ∀ t, t ∈ timestamps ↔ t ∈ expectedTimestamps (es + 60) ee :=
    fun t => hperm.mem_iff
  have hes_not : es ∉ timestamps := by
    intro hmem
    have h1 := (hmem_iff es).mp hmem
    have h2 := (mem_expectedTimestamps_bounds h1).1
    omega
  have hmissing : validate_data_missing timestamps (some es) (some ee) = [es] := by
    simp only [validate_data_missing, Option.getD_some, hcons, List.filter_cons]
    have hc1 : (!(List.insertionSort (fun a b : Int => a ≤ b) timestamps).contains es) = true := by
      rw [Bool.not_eq_true', ← Bool.not_eq_true, sorted_contains_iff]
      exact hes_not
    rw [if_pos hc1]
    refine congrArg (es :: ·) (List.filter_eq_nil_iff.mpr ?_)
    intro t ht hcontra
    rw [Bool.not_eq_true', ← Bool.not_eq_true, sorted_contains_iff] at hcontra
    exact hcontra ((hmem_iff t).mpr ht)
  have hne : timestamps ≠ [] := by
    intro h0
    rw [h0] at hperm
    have hlen := hperm.length_eq
    have htail : expectedTimestamps (es + 60) ee
        = (es + 60) :: expectedTimestamps (es + 60 + 60) ee := by
      rw [expectedTimestamps_eq_loop, if_pos (by omega)]
    rw [htail] at hlen
    simp at hlen
  refine ⟨?_, hmissing⟩
  have hne2 : timestamps.isEmpty = false := by
    simpa [List.isEmpty_iff] using hne
  simp only [validate_data, hne2, Bool.false_eq_true, if_false, hmissing]
  rfl

/-- C6 witness: the theorem applied to the span [0, 120] and the series
[60, 120], which misses exactly the first expected timestamp 0. -/
theorem validate_data_first_expected_missing_witness :
    validate_data [60, 120] (some 0) (some 120) = false ∧
      validate_data_missing [60, 120] (some 0) (some 120) = [0] :=
  validate_data_first_expected_missing 0 120 [60, 120] (by decide) (by decide)

/-- Membership in the duplicated list is membership in the original. -/
theorem mem_dupEach {x : CsvRow} : ∀ {l : List CsvRow}, x ∈ dupEach l ↔ x ∈ l := by
  intro l
  induction l with
  | nil => simp [dupEach]
  | cons a t ih =>
    simp only [dupEach, List.mem_cons, ih]
    tauto

/-- `S ++ S` is a permutation of the in-place duplication of `S`. -/
theorem perm_dupEach : ∀ l : List CsvRow, (l ++ l).Perm (dupEach l) := by
  intro l
  induction l with
  | nil => simp [dupEach]
  | cons a t ih =>
    simp only [dupEach, List.cons_append]
    refine List.Perm.cons a ?_
    exact List.perm_middle.trans (List.Perm.cons a ih)

/-- Duplicating a strictly-sorted row list gives a `rowOrd`-sorted list. -/
theorem sorted_rowOrd_dupEach : ∀ S : List CsvRow, S.Pairwise rowLt →
    (dupEach S).Pairwise rowOrd := by
  intro S
  induction S with
  | nil => intro _; simp [dupEach]
  | cons a t ih =>
    intro hS
    obtain ⟨ha, ht⟩ := List.pairwise_cons.mp hS
    simp only [dupEach]
    refine List.Pairwise.cons ?_ (List.Pairwise.cons ?_ (ih ht))
    · intro b hb
      rcases List.mem_cons.mp hb with rfl | hb2
      · exact Or.inr rfl
      · exact Or.inl (ha b (mem_dupEach.mp hb2))
    · intro b hb
      exact Or.inl (ha b (mem_dupEach.mp hb))

/-- In a strictly-sorted row list, rows are uniquely determined by their
timestamp, and likewise in its self-append. -/
theorem key_unique_self_append (S : List CsvRow) (hS : S.Pairwise rowLt) :
    ∀ x ∈ S ++ S, ∀ y ∈ S ++ S, x.unix_timestamp = y.unix_timestamp → x = y := by
  have hS2 : S.Pairwise (fun x y => x.unix_timestamp ≠ y.unix_timestamp) :=
    hS.imp (fun h => by simp only [rowLt] at h; omega)
  have hsym : Symmetric (fun x y : CsvRow => x.unix_timestamp ≠ y.unix_timestamp) :=
    fun x y h he => h he.symm
  have hin : ∀ x ∈ S, ∀ y ∈ S, x.unix_timestamp = y.unix_timestamp → x = y := by
    intro x hx y hy heq
    by_cases hxy : x = y
    · exact hxy
    · exact absurd heq (hS2.forall hsym hx hy hxy)
  intro x hx y hy
  exact hin x (by rcases List.mem_append.mp hx with h | h <;> exact h)
    y (by rcases List.mem_append.mp hy with h | h <;> exact h)

/-- The stable sort of `S ++ S` for strictly-sorted `S` duplicates each row in
place: the sorted permutation is unique because equal-timestamp rows of
`S ++ S` are equal rows. -/
theorem insertionSort_self_append (S : List CsvRow) (hS : S.Pairwise rowLt) :
    List.insertionSort rowLe (S ++ S) = dupEach S := by
  have hperm : (List.insertionSort rowLe (S ++ S)).Perm (S ++ S) :=
    List.perm_insertionSort rowLe (S ++ S)
  have hsorted : List.Sorted rowLe (List.insertionSort rowLe (S ++ S)) :=
    List.sorted_insertionSort rowLe (S ++ S)
  have hkey := key_unique_self_append S hS
  have hsorted2 : List.Sorted rowOrd (List.insertionSort rowLe (S ++ S)) := by
    refine List.Pairwise.imp_of_mem ?_ hsorted
    intro x y hx hy hle
    rcases lt_or_eq_of_le (show x.unix_timestamp ≤ y.unix_timestamp from hle) with hlt | heq
    · exact Or.inl hlt
    · exact Or.inr (hkey x (hperm.mem_iff.mp hx) y (hperm.mem_iff.mp hy) heq)
  exact List.eq_of_perm_of_sorted (hperm.trans (perm_dupEach S)) hsorted2
    (sorted_rowOrd_dupEach S hS)

/-- Walking the duplicated strictly-sorted list, the dedupe loop keeps each
first copy and drops each second copy. -/
theorem dedupeLoop_dupEach :
    ∀ (S : List CsvRow) (seen : List Int), S.Pairwise rowLt →
      (∀ s ∈ S, seen.contains s.unix_timestamp = false) →
      dedupeLoop seen (dupEach S) = (S, S.length) := by
  intro S
  induction S with
  | nil => intro seen _ _; rfl
  | cons a t ih =>
    intro seen hS hseen
    obtain ⟨ha, ht⟩ := List.pairwise_cons.mp hS
    have hseen_a : seen.contains a.unix_timestamp = false :=
      hseen a (List.mem_cons_self _ _)
    have hrec : dedupeLoop (a.unix_timestamp :: seen) (dupEach t) = (t, t.length) := by
      apply ih _ ht
      intro s hs
      have h1 : s.unix_timestamp ≠ a.unix_timestamp := by
        have h2 := ha s hs
        simp only [rowLt] at h2
        omega
      have h3 : seen.contains s.unix_timestamp = false :=
        hseen s (List.mem_cons_of_mem _ hs)
      simp only [List.contains_cons, Bool.or_eq_false_iff, beq_eq_false_iff_ne, ne_eq]
      exact ⟨h1, h3⟩
    simp only [dupEach, dedupeLoop, hseen_a, Bool.false_eq_true, if_false,
      List.contains_cons, beq_self_eq_true, Bool.true_or, if_true, hrec,
      List.length_cons]

/-- C4: when the first source has a row and the second source has a row at
the same timestamp, merge_csv_files keeps the row of the first source and
reports exactly one dropped duplicate.  The first source wins because the
sort is stable (first-encountered order is preserved among equal timestamps)
and the dedupe pass keeps the first occurrence. -/
theorem merge_csv_files_first_source_wins (a b : CsvRow)
    (h : b.unix_timestamp = a.unix_timestamp) :
    merge_csv_files [a] [b] = ([a], 1) := by
  have hsort : List.insertionSort rowLe ([a] ++ [b]) = [a, b] := by
    simp only [List.cons_append, List.nil_append, List.insertionSort, List.orderedInsert]
    rw [if_pos (show rowLe a b from le_of_eq h.symm)]
  rw [merge_csv_files, hsort]
  simp [dedupeLoop, List.contains_cons, h]

/-- C4 witness: source A provides the timestamp-100 row with open 50, source
B provides a timestamp-100 row with open 51; the merge keeps the price-50 row
and drops one duplicate. -/
theorem merge_csv_files_first_source_wins_witness :
    merge_csv_files [⟨50, 50, 5, 100, 50, 50⟩] [⟨51, 51, 7, 100, 51, 51⟩]
        = ([⟨50, 50, 5, 100, 50, 50⟩], 1) ∧
    (⟨50, 50, 5, 100, 50, 50⟩ : CsvRow).open_p = 50 ∧
    (⟨51, 51, 7, 100, 51, 51⟩ : CsvRow).open_p = 51 :=
  ⟨merge_csv_files_first_source_wins _ _ rfl, rfl, rfl⟩

/-- C7 counterexample: for a collection S containing an internal duplicate
timestamp, merging [S, S] does not return S — the result has fewer rows than
S, so merge is not the identity on arbitrary self-merges. -/
theorem merge_csv_files_self_merge_not_identity :
    ((merge_csv_files [⟨50, 50, 5, 100, 50, 50⟩, ⟨50, 50, 5, 100, 50, 50⟩]
        [⟨50, 50, 5, 100, 50, 50⟩, ⟨50, 50, 5, 100, 50, 50⟩]).1).length
      ≠ ([⟨50, 50, 5, 100, 50, 50⟩, ⟨50, 50, 5, 100, 50, 50⟩] : List CsvRow).length := by
  decide

/-- C7 amended: for a collection S in canonical series form — sorted with
strictly increasing timestamps — merging [S, S] returns S itself in size and
content (reporting |S| dropped duplicates); for an unsorted or internally
duplicated S the result is the sorted deduplicated form rather than S. -/
theorem merge_csv_files_self_merge_of_sorted (S : List CsvRow)
    (hS : S.Pairwise rowLt) :
    merge_csv_files S S = (S, S.length) := by
  rw [merge_csv_files, insertionSort_self_append S hS]
  exact dedupeLoop_dupEach S [] hS (fun s _ => rfl)

/-- C7 witness: self-merge of a two-row strictly sorted collection. -/
theorem merge_csv_files_self_merge_of_sorted_witness :
    merge_csv_files [⟨1, 1, 1, 100, 1, 1⟩, ⟨2, 2, 2, 160, 2, 2⟩]
        [⟨1, 1, 1, 100, 1, 1⟩, ⟨2, 2, 2, 160, 2, 2⟩]
      = ([⟨1, 1, 1, 100, 1, 1⟩, ⟨2, 2, 2, 160, 2, 2⟩], 2) :=
  merge_csv_files_self_merge_of_sorted
    [⟨1, 1, 1, 100, 1, 1⟩, ⟨2, 2, 2, 160, 2, 2⟩] (by decide)

/-- C8 counterexample: when the last Bitstamp row and the first Coinbase row
carry the same timestamp, merge_2015_data resolves the conflict through the
interactive prompt: two runs on identical inputs that read different choices
from the interactive channel produce different merged outputs. -/
theorem merge_2015_data_depends_on_interactive_choice :
    merge_2015_data [⟨"2015-10-20 00:00", ["50"]⟩] [⟨"2015-10-20 00:00", ["51"]⟩] "1"
      ≠ merge_2015_data [⟨"2015-10-20 00:00", ["50"]⟩] [⟨"2015-10-20 00:00", ["51"]⟩] "2" := by
  decide

/-- C8 amended: merge_2015_data resolves a duplicated boundary timestamp by
interactive input, not by a configuration value; only when the boundary
timestamps of the two sources differ (no overlap) is the merged output
independent of whatever is read from the interactive channel. -/
theorem merge_2015_data_no_overlap_choice_independent
    (bitstamp_data coinbase_data : List Row2015) (bl cf : Row2015)
    (hb : bitstamp_data.getLast? = some bl) (hc : coinbase_data.head? = some cf)
    (hne : bl.ts ≠ cf.ts) (choice1 choice2 : String) :
    merge_2015_data bitstamp_data coinbase_data choice1
      = merge_2015_data bitstamp_data coinbase_data choice2 := by
  simp only [merge_2015_data, hb, hc, if_neg hne]

/-- C8 witness: with distinct boundary timestamps the two interactive choices
give the same output. -/
theorem merge_2015_data_no_overlap_choice_independent_witness :
    merge_2015_data [⟨"a", []⟩] [⟨"b", []⟩] "1" = merge_2015_data [⟨"a", []⟩] [⟨"b", []⟩] "2" :=
  merge_2015_data_no_overlap_choice_independent [⟨"a", []⟩] [⟨"b", []⟩] ⟨"a", []⟩
    ⟨"b", []⟩ rfl rfl (by decide) "1" "2"

/-- The retry recursion of get_candles_binance, characterized from any
attempt number: the recorded back-off delays are RETRY_DELAY * 2 ^ attempt
for consecutive attempts, at most MAX_RETRIES - retry_count retries happen,
and if every attempt fails the result is the failure value none. -/
theorem get_candles_binance_spec (oracle : Nat → BinanceResp) :
    ∀ (n retry_count : Nat), MAX_RETRIES - retry_count ≤ n →
      (get_candles_binance oracle retry_count).2
          = (List.range (get_candles_binance oracle retry_count).2.length).map
              (fun k => RETRY_DELAY * 2 ^ (retry_count + k)) ∧
      (get_candles_binance oracle retry_count).2.length ≤ MAX_RETRIES - retry_count ∧
      ((∀ k, (oracle k).isFailure = true) →
        (get_candles_binance oracle retry_count).1 = none) := by
  intro n
  induction n with
  | zero =>
    intro rc hrc
    rw [get_candles_binance]
    cases ho : oracle rc with
    | ok data =>
      refine ⟨?_, ?_, ?_⟩
      · by_cases hd : data.isEmpty <;> simp [hd]
      · by_cases hd : data.isEmpty <;> simp [hd]
      · intro hfail
        have h1 := hfail rc
        rw [ho] at h1
        exact absurd h1 (by simp [BinanceResp.isFailure])
    | httpStatus code =>
      have h : ¬ rc < MAX_RETRIES := by omega
      simp [h]
    | exc =>
      have h : ¬ rc < MAX_RETRIES := by omega
      simp [h]
  | succ n ih =>
    intro rc hrc
    rw [get_candles_binance]
    cases ho : oracle rc with
    | ok data =>
      refine ⟨?_, ?_, ?_⟩
      · by_cases hd : data.isEmpty <;> simp [hd]
      · by_cases hd : data.isEmpty <;> simp [hd]
      · intro hfail
        have h1 := hfail rc
        rw [ho] at h1
        exact absurd h1 (by simp [BinanceResp.isFailure])
    | httpStatus code =>
      by_cases h : rc < MAX_RETRIES
      · obtain ⟨h1, h2, h3⟩ := ih (rc + 1) (by omega)
        simp only [h, dif_pos, if_pos]
        refine ⟨?_, ?_, fun hfail => h3 hfail⟩
        · show RETRY_DELAY * 2 ^ rc :: (get_candles_binance oracle (rc + 1)).2
            = (List.range ((get_candles_binance oracle (rc + 1)).2.length + 1)).map
                (fun k => RETRY_DELAY * 2 ^ (rc + k))
          rw [List.range_succ_eq_map, List.map_cons, List.map_map]
          refine congrArg₂ List.cons (by rw [Nat.add_zero]) ?_
          conv_lhs => rw [h1]
          refine List.map_congr_left ?_
          intro k _
          simp only [Function.comp_apply]
          congr 2
          omega
        · show (get_candles_binance oracle (rc + 1)).2.length + 1 ≤ MAX_RETRIES - rc
          omega
      · simp [h]
    | exc =>
      by_cases h : rc < MAX_RETRIES
      · obtain ⟨h1, h2, h3⟩ := ih (rc + 1) (by omega)
        simp only [h, dif_pos, if_pos]
        refine ⟨?_, ?_, fun hfail => h3 hfail⟩
        · show RETRY_DELAY * 2 ^ rc :: (get_candles_binance oracle (rc + 1)).2
            = (List.range ((get_candles_binance oracle (rc + 1)).2.length + 1)).map
                (fun k => RETRY_DELAY * 2 ^ (rc + k))
          rw [List.range_succ_eq_map, List.map_cons, List.map_map]
          refine congrArg₂ List.cons (by rw [Nat.add_zero]) ?_
          conv_lhs => rw [h1]
          refine List.map_congr_left ?_
          intro k _
          simp only [Function.comp_apply]
          congr 2
          omega
        · show (get_candles_binance oracle (rc + 1)).2.length + 1 ≤ MAX_RETRIES - rc
          omega
      · simp [h]

/-- C5: for every sequence of responses, get_candles_binance retries at most
MAX_RETRIES times, the back-off delay slept before retry attempt k is
RETRY_DELAY * 2 ^ k, and if every attempt is a rate-limit or transient
failure the function returns the failure value none to the caller (the
embedding is total: the source catches exceptions rather than raising). -/
theorem get_candles_binance_retry_policy (oracle : Nat → BinanceResp) :
    (get_candles_binance oracle 0).2.length ≤ MAX_RETRIES ∧
    (get_candles_binance oracle 0).2
        = (List.range (get_candles_binance oracle 0).2.length).map
            (fun k => RETRY_DELAY * 2 ^ k) ∧
    ((∀ k, (oracle k).isFailure = true) → (get_candles_binance oracle 0).1 = none) := by
  obtain ⟨h1, h2, h3⟩ := get_candles_binance_spec oracle MAX_RETRIES 0 (by omega)
  refine ⟨by simpa using h2, ?_, h3⟩
  conv_lhs => rw [h1]
  refine List.map_congr_left ?_
  intro k _
  rw [Nat.zero_add]

/-- C5 witness: against an always-429 source the function returns none after
exactly the back-off schedule 2, 4, 8, 16, 32. -/
theorem get_candles_binance_retry_policy_witness :
    (get_candles_binance rate_limited_source 0).1 = none ∧
    (get_candles_binance rate_limited_source 0).2 = [2, 4, 8, 16, 32] :=
  ⟨(get_candles_binance_retry_policy rate_limited_source).2.2 (fun _ => rfl),
   by simp [get_candles_binance, rate_limited_source, MAX_RETRIES, RETRY_DELAY]⟩

/-- With an all-failing secondary source every chunk is skipped by the
`continue` branch, so the collected data stays empty. -/
theorem collectChunks_none (get_candles : Int → Int → Option (List Candle))
    (h : ∀ x y, get_candles x y = none) :
    ∀ chunks, collectChunks get_candles chunks = [] := by
  intro chunks
  induction chunks with
  | nil => rfl
  | cons c rest ih =>
    obtain ⟨cs, ce⟩ := c
    simp [collectChunks, h, ih]

/-- The chunking of the single-minute range [120, 120]. -/
theorem mkChunks_120 : mkChunks 120 120 = [(120, 120)] := by
  rw [mkChunks]
  norm_num [MAX_CHUNK_SIZE, MAX_CANDLES_PER_REQUEST]
  rw [mkChunks]
  norm_num

/-- C3 counterexample: the series with candles at t = 0, 60, 180 has exactly
the missing range (120, 120), but repairing that range when every secondary
fetch fails returns none: no candle at t = 120 is synthesized at all (the
t = 60 candle of the series is not even an input of fetch_missing_range), so
nothing equal to the t = 60 OHLC with volume 0 is produced. -/
theorem fetch_missing_range_no_candle_at_120 :
    find_missing_timestamps [0, 60, 180] = [(120, 120)] ∧
    fetch_missing_range unreachable_secondary 120 120 = none := by
  refine ⟨by decide, ?_⟩
  simp only [fetch_missing_range, mkChunks_120,
    collectChunks_none unreachable_secondary (fun _ _ => rfl)]
  rfl

/-- C3 amended: when the secondary source is unreachable (every fetch of
every chunk fails), fetch_missing_range synthesizes nothing and reports
failure (none) for the whole range; carry-forward synthesis only ever happens
inside chunks whose secondary fetch succeeded, seeded by the fetched candles
rather than by the original series. -/
theorem fetch_missing_range_unreachable_returns_none
    (get_candles : Int → Int → Option (List Candle))
    (start_timestamp end_timestamp : Int)
    (h : ∀ x y, get_candles x y = none) :
    fetch_missing_range get_candles start_timestamp end_timestamp = none := by
  simp only [fetch_missing_range, collectChunks_none get_candles h]
  rfl

/-- C3 witness: the amended theorem at the range [0, 0]. -/
theorem fetch_missing_range_unreachable_returns_none_witness :
    fetch_missing_range unreachable_secondary 0 0 = none :=
  fetch_missing_range_unreachable_returns_none unreachable_secondary 0 0 (fun _ _ => rfl)
